import Mathlib

/-!
Verification of the core of the DPIP Twitch chat integration extension.

The development shallowly embeds the relevant JavaScript sources:
- `src/src/ircMessage.js` — the IRCv3 wire-message model (class IRCMessage);
- the service-worker session manager (class WorkerInterfacer);
- the publish/subscribe template (class PublishSubscribeTemplate).

JavaScript strings are modelled as `List Char`; JS `undefined`/`null`
and absent object properties are modelled with `Option` or an explicit
`JSVal` type where the distinction matters.
-/

namespace DPIP

/-- JavaScript strings, modelled as lists of characters. -/
abbrev Str := List Char

/-! ## JS string primitives used by IRCMessage.parse -/

/-- JS `String.prototype.indexOf(ch)` restricted to single characters:
first index of `ch`, or `none` (JS `-1`) when absent. -/
def jsIndexOf (ch : Char) : Str → Option Nat
  | [] => none
  | a :: rest => if a = ch then some 0 else (jsIndexOf ch rest).map (· + 1)

/-- JS `String.prototype.slice(a, b)` for `0 ≤ a, b`. -/
def jsSlice (s : Str) (a b : Nat) : Str := (s.take b).drop a

/-- JS `String.prototype.split(sep)` for a single-character separator.
Always returns a non-empty list of chunks; `"".split(c) = [""]`. -/
def jsSplit (ch : Char) : Str → List Str
  | [] => [[]]
  | a :: rest =>
    if a = ch then [] :: jsSplit ch rest
    else
      match jsSplit ch rest with
      | [] => [[a]]
      | t :: ts => (a :: t) :: ts

/-- JS object property assignment `obj[k] = v` on an object modelled as an
insertion-ordered association list: an existing key keeps its position and
gets the new value, a new key is appended. -/
def objInsert (k : Str) (v : Str) : List (Str × Str) → List (Str × Str)
  | [] => [(k, v)]
  | (k', v') :: rest => if k' = k then (k, v) :: rest else (k', v') :: objInsert k v rest

/-! ## IRCMessage (src/src/ircMessage.js) -/

/-- The structured message origin (source field `prefix` of IRCMessage,
renamed because the source name is a Lean keyword). `none` models a JS
field left `undefined`. -/
structure Pfx where
  nickname : Option Str := none
  user : Option Str := none
  host : Option Str := none
deriving DecidableEq

/-- The parsed wire message (class IRCMessage). The source field `prefix`
is named `pfx` here. Tag maps are insertion-ordered association lists. -/
structure IRCMessage where
  command : Str := []
  pfx : Pfx := {}
  tags : List (Str × Str) := []
  rawTags : List (Str × Str) := []
  params : List Str := []
deriving DecidableEq

namespace IRCMessage

/-- The escape table of `IRCMessage._unescapeIRC`: the character following a
backslash and its replacement, `none` for sequences the regex does not match. -/
def esc2unesc (c : Char) : Option Char :=
  if c = ':' then some ';'
  else if c = 's' then some ' '
  else if c = '\\' then some '\\'
  else if c = 'r' then some '\r'
  else if c = 'n' then some '\n'
  else none

/-- `IRCMessage._unescapeIRC`: `str.replace(re, m => esc2unesc[m])` where the
regex matches a backslash followed by one of `s n r : \`, scanning left to
right; at a non-match the scan advances one character. -/
def unescapeIRC : Str → Str
  | [] => []
  | '\\' :: c :: rest =>
    match esc2unesc c with
    | some u => u :: unescapeIRC rest
    | none => '\\' :: unescapeIRC (c :: rest)
  | c :: rest => c :: unescapeIRC rest

/-- `IRCMessage._parseTag`: unescape a raw key/value pair. -/
def parseTag (rawKey : Str) (rawValue : Str) : Str × Str :=
  (unescapeIRC rawKey, unescapeIRC rawValue)

/-- The `tagsRaw.split(';').forEach(...)` loop of `IRCMessage.parse`:
returns the accumulated `(rawTags, tags)` objects. -/
def parseTagsSegment (tagsRaw : Str) : List (Str × Str) × List (Str × Str) :=
  (jsSplit ';' tagsRaw).foldl
    (fun acc tagStr =>
      let parts := jsSplit '=' tagStr
      let rawKey := parts.headD []
      let rawValue := (parts.get? 1).getD []
      let u := parseTag rawKey rawValue
      (objInsert rawKey rawValue acc.1, objInsert u.1 u.2 acc.2))
    ([], [])

/-- The origin-splitting branch of `IRCMessage.parse` applied to the raw
text between the leading `:` and the next space. JS destructuring of
`split` results takes the first two chunks. -/
def parsePrefixRaw (prefixRaw : Str) : Pfx :=
  if prefixRaw.contains '!' then
    let parts := jsSplit '!' prefixRaw
    let nickname := parts.headD []
    let userHost := (parts.get? 1).getD []
    if userHost.contains '@' then
      let uh := jsSplit '@' userHost
      { nickname := some nickname, user := some (uh.headD []),
        host := some ((uh.get? 1).getD []) }
    else
      { nickname := some nickname, user := some userHost, host := none }
  else if prefixRaw.contains '@' then
    let uh := jsSplit '@' prefixRaw
    { nickname := none, user := some (uh.headD []), host := some ((uh.get? 1).getD []) }
  else
    { nickname := none, user := none, host := some prefixRaw }

/-- The local helper `getNextSpace` of `IRCMessage.parse`:
`message.indexOf(' ', offset)`, with `-1` mapped to `message.length`. -/
def getNextSpace (s : Str) (offset : Nat) : Nat :=
  match jsIndexOf ' ' (s.drop offset) with
  | some k => offset + k
  | none => s.length

/-- The local helper `currentChar` of `IRCMessage.parse`:
`message[start] === c` (out-of-range access gives `undefined`, never equal). -/
def currentChar (s : Str) (c : Char) (start : Nat) : Bool :=
  s.get? start = some c

theorem jsIndexOf_lt_length {ch : Char} {l : Str} {k : Nat}
    (h : jsIndexOf ch l = some k) : k < l.length := by
  induction l generalizing k with
  | nil => simp [jsIndexOf] at h
  | cons a rest ih =>
    rw [jsIndexOf] at h
    split at h
    · cases h
      simp
    · rw [Option.map_eq_some'] at h
      obtain ⟨k', hk', rfl⟩ := h
      have := ih hk'
      simp only [List.length_cons]
      omega

theorem le_getNextSpace (s : Str) (o : Nat) (h : o < s.length) :
    o ≤ getNextSpace s o := by
  unfold getNextSpace
  cases hfind : jsIndexOf ' ' (s.drop o) with
  | none => dsimp only; omega
  | some k => dsimp only; omega

/-- The parameter `while` loop of `IRCMessage.parse`, starting at `offset`. -/
def parseParamsAux (s : Str) (offset : Nat) : List Str :=
  if h : offset < s.length then
    if currentChar s ':' offset then [s.drop (offset + 1)]
    else
      jsSlice s offset (getNextSpace s offset) ::
        parseParamsAux s (getNextSpace s offset + 1)
  else []
termination_by s.length - offset
decreasing_by
  have h1 := le_getNextSpace s offset h
  omega

/-- `IRCMessage.parse`: tags stage, origin stage, command token, parameter
loop. The mutable `offset` of the source is threaded explicitly: `offset1`
is its value after the tag stage and `offset2` after the origin stage
(`tagsEnd`/`prefixEnd` are `getNextSpace` at the stage's start offset). -/
def parse (message : Str) : IRCMessage :=
  let offset1 :=
    if currentChar message '@' 0 then getNextSpace message 0 + 1 else 0
  let tagsPair :=
    if currentChar message '@' 0 then
      parseTagsSegment (jsSlice message 1 (getNextSpace message 0))
    else ([], [])
  let offset2 :=
    if currentChar message ':' offset1 then getNextSpace message offset1 + 1
    else offset1
  let pfx0 :=
    if currentChar message ':' offset1 then
      parsePrefixRaw (jsSlice message (offset1 + 1) (getNextSpace message offset1))
    else {}
  let commandEnd := getNextSpace message offset2
  { command := jsSlice message offset2 commandEnd
    pfx := pfx0
    tags := tagsPair.2
    rawTags := tagsPair.1
    params := parseParamsAux message (commandEnd + 1) }

/-! ### toJSON / fromJSON -/

/-- The record produced by `IRCMessage.toJSON`. Fields other than `command`
are `Option`s because `fromJSON` treats them as possibly absent
(`json.prefix || {}` and the like); `toJSON` always fills every field. -/
structure JsonMsg where
  command : Str
  pfx : Option Pfx
  tags : Option (List (Str × Str))
  rawTags : Option (List (Str × Str))
  params : Option (List Str)
deriving DecidableEq

/-- `IRCMessage.prototype.toJSON`. -/
def toJSON (m : IRCMessage) : JsonMsg :=
  { command := m.command, pfx := some m.pfx, tags := some m.tags,
    rawTags := some m.rawTags, params := some m.params }

/-- `IRCMessage.fromJSON`: absent fields fall back to empty defaults. -/
def fromJSON (j : JsonMsg) : IRCMessage :=
  { command := j.command
    pfx := j.pfx.getD {}
    tags := j.tags.getD []
    rawTags := j.rawTags.getD []
    params := j.params.getD [] }

end IRCMessage

/-! ## Token-level view of the parser

`IRCMessage.parse` walks the line with an offset and `indexOf`; the lemmas
below re-express each stage as `takeWhile`/`dropWhile` on the remaining
suffix, which is the form the grammar-level theorems use. -/

/-- The maximal space-free token at the head of `s`. -/
def takeTok (s : Str) : Str := s.takeWhile (fun c => c ≠ ' ')

/-- What remains of `s` after its head token and the following space. -/
def restTok (s : Str) : Str := (s.dropWhile (fun c => c ≠ ' ')).tail

theorem jsIndexOf_none_takeWhile {ch : Char} {l : Str}
    (h : jsIndexOf ch l = none) : l.takeWhile (fun c => c ≠ ch) = l := by
  induction l with
  | nil => simp
  | cons a rest ih =>
    rw [jsIndexOf] at h
    split at h
    · exact absurd h (by simp)
    · rename_i ha
      simp only [Option.map_eq_none'] at h
      rw [List.takeWhile_cons_of_pos (p := fun c => decide (c ≠ ch)) (by simp [ha]), ih h]

theorem jsIndexOf_none_dropWhile {ch : Char} {l : Str}
    (h : jsIndexOf ch l = none) : l.dropWhile (fun c => c ≠ ch) = [] := by
  induction l with
  | nil => simp
  | cons a rest ih =>
    rw [jsIndexOf] at h
    split at h
    · exact absurd h (by simp)
    · rename_i ha
      simp only [Option.map_eq_none'] at h
      rw [List.dropWhile_cons_of_pos (p := fun c => decide (c ≠ ch)) (by simp [ha])]
      exact ih h

theorem jsIndexOf_some_take {ch : Char} {l : Str} {k : Nat}
    (h : jsIndexOf ch l = some k) :
    l.take k = l.takeWhile (fun c => c ≠ ch) := by
  induction l generalizing k with
  | nil => simp [jsIndexOf] at h
  | cons a rest ih =>
    rw [jsIndexOf] at h
    split at h
    · rename_i ha
      cases h
      simp [List.takeWhile_cons, ha]
    · rename_i ha
      rw [Option.map_eq_some'] at h
      obtain ⟨k', hk', rfl⟩ := h
      simp [List.takeWhile_cons, ha, ih hk']

theorem jsIndexOf_some_drop {ch : Char} {l : Str} {k : Nat}
    (h : jsIndexOf ch l = some k) :
    l.drop (k + 1) = (l.dropWhile (fun c => c ≠ ch)).tail := by
  induction l generalizing k with
  | nil => simp [jsIndexOf] at h
  | cons a rest ih =>
    rw [jsIndexOf] at h
    split at h
    · rename_i ha
      cases h
      simp [List.dropWhile_cons, ha]
    · rename_i ha
      rw [Option.map_eq_some'] at h
      obtain ⟨k', hk', rfl⟩ := h
      simpa [List.dropWhile_cons, ha] using ih hk'

theorem jsSlice_getNextSpace (s : Str) (o : Nat) :
    jsSlice s o (IRCMessage.getNextSpace s o) = takeTok (s.drop o) := by
  unfold IRCMessage.getNextSpace jsSlice takeTok
  cases hfind : jsIndexOf ' ' (s.drop o) with
  | none =>
    dsimp only
    rw [List.take_length, jsIndexOf_none_takeWhile hfind]
  | some k =>
    dsimp only
    rw [List.drop_take, ← jsIndexOf_some_take hfind]
    congr 1
    omega

theorem drop_getNextSpace (s : Str) (o : Nat) :
    s.drop (IRCMessage.getNextSpace s o + 1) = restTok (s.drop o) := by
  unfold IRCMessage.getNextSpace restTok
  cases hfind : jsIndexOf ' ' (s.drop o) with
  | none =>
    dsimp only
    rw [List.drop_eq_nil_of_le (by omega), jsIndexOf_none_dropWhile hfind]
    rfl
  | some k =>
    dsimp only
    rw [← jsIndexOf_some_drop hfind, List.drop_drop]
    congr 1

theorem getq_eq_head_drop (s : Str) (o : Nat) : s.get? o = (s.drop o).head? := by
  induction s generalizing o with
  | nil => simp
  | cons a rest ih =>
    cases o with
    | zero => simp
    | succ n => simp [ih n]

theorem currentChar_eq (s : Str) (c : Char) (o : Nat) :
    IRCMessage.currentChar s c o = decide ((s.drop o).head? = some c) := by
  unfold IRCMessage.currentChar
  rw [getq_eq_head_drop]

theorem drop_cons_of_head (s : Str) (o : Nat) {a : Char}
    (h : (s.drop o).head? = some a) : s.drop o = a :: s.drop (o + 1) := by
  induction s generalizing o with
  | nil => simp at h
  | cons b rest ih =>
    cases o with
    | zero => simp_all
    | succ n => simpa using ih n (by simpa using h)

theorem getNextSpace_succ_of_ne (s : Str) (o : Nat) {a : Char}
    (h : (s.drop o).head? = some a) (ha : a ≠ ' ') :
    IRCMessage.getNextSpace s o = IRCMessage.getNextSpace s (o + 1) := by
  unfold IRCMessage.getNextSpace
  rw [drop_cons_of_head s o h, jsIndexOf]
  rw [if_neg ha]
  cases hfind : jsIndexOf ' ' (s.drop (o + 1)) with
  | none => rfl
  | some k => simp only [Option.map_some']; omega

/-! ## Spec-side parameter rule

`paramsSpec` follows the spec's words for §4.1 item 4: remaining tokens are
space-delimited parameters, except that a token starting with `:` makes the
rest of the line (leading `:` stripped) the final parameter. -/

theorem length_restTok_lt (c : Char) (rest : Str) :
    (restTok (c :: rest)).length < (c :: rest).length := by
  unfold restTok
  have h1 : (List.dropWhile (fun c => decide (c ≠ ' ')) (c :: rest)).length ≤
      (c :: rest).length := by
    conv_rhs => rw [← List.takeWhile_append_dropWhile (p := fun c => decide (c ≠ ' '))
      (l := c :: rest)]
    rw [List.length_append]
    omega
  rw [List.length_tail]
  simp only [List.length_cons] at h1 ⊢
  omega

/-- Spec-side statement of the remaining-parameter rule: space-delimited
tokens until a token starts with `:`, which makes the rest of the line the
final parameter. -/
def paramsSpec : Str → List Str
  | [] => []
  | c :: rest =>
    if c = ':' then [rest]
    else takeTok (c :: rest) :: paramsSpec (restTok (c :: rest))
termination_by s => s.length
decreasing_by
  exact length_restTok_lt _ _

theorem parseParamsAux_eq_aux (s : Str) (n : Nat) :
    ∀ o, s.length - o ≤ n →
      IRCMessage.parseParamsAux s o = paramsSpec (s.drop o) := by
  induction n with
  | zero =>
    intro o ho
    rw [IRCMessage.parseParamsAux, dif_neg (by omega),
      List.drop_eq_nil_of_le (by omega)]
    simp [paramsSpec]
  | succ n ih =>
    intro o ho
    by_cases hlt : o < s.length
    · rw [IRCMessage.parseParamsAux, dif_pos hlt]
      have hdrop : ∃ a, (s.drop o).head? = some a := by
        cases hh : (s.drop o).head? with
        | none =>
          exfalso
          rw [List.head?_eq_none_iff] at hh
          have := congrArg List.length hh
          rw [List.length_drop] at this
          simp at this
          omega
        | some a => exact ⟨a, rfl⟩
      obtain ⟨a, ha⟩ := hdrop
      have hcons := drop_cons_of_head s o ha
      by_cases hc : a = ':'
      · rw [if_pos (by rw [currentChar_eq, ha, hc]; simp)]
        rw [hcons, hc]
        simp [paramsSpec]
      · rw [if_neg (by rw [currentChar_eq, ha]; simp [hc])]
        have hle := IRCMessage.le_getNextSpace s o hlt
        rw [ih (IRCMessage.getNextSpace s o + 1) (by omega)]
        rw [jsSlice_getNextSpace, drop_getNextSpace]
        conv_rhs => rw [hcons]
        simp only [paramsSpec]
        rw [if_neg hc, ← hcons]
    · rw [IRCMessage.parseParamsAux, dif_neg hlt,
        List.drop_eq_nil_of_le (by omega)]
      simp [paramsSpec]

theorem parseParamsAux_eq (s : Str) (o : Nat) :
    IRCMessage.parseParamsAux s o = paramsSpec (s.drop o) :=
  parseParamsAux_eq_aux s (s.length - o) o le_rfl

/-! ## Structural decomposition of parse -/

/-- The tag maps `(rawTags, tags)` a line contributes: the segment after a
leading `@` up to the first space, fed to the tag loop. -/
def tagsOf (msg : Str) : List (Str × Str) × List (Str × Str) :=
  if msg.head? = some '@' then IRCMessage.parseTagsSegment (takeTok (msg.drop 1))
  else ([], [])

/-- The line with its tag segment (and delimiting space) consumed. -/
def restAfterTags (msg : Str) : Str :=
  if msg.head? = some '@' then restTok (msg.drop 1) else msg

/-- The origin structure a line contributes: the segment after a leading `:`
of the remainder, up to the next space, fed to the origin splitter. -/
def pfxOf (msg : Str) : Pfx :=
  if (restAfterTags msg).head? = some ':' then
    IRCMessage.parsePrefixRaw (takeTok ((restAfterTags msg).drop 1))
  else {}

/-- The line with tag and origin segments consumed. -/
def restAfterPfx (msg : Str) : Str :=
  if (restAfterTags msg).head? = some ':' then restTok ((restAfterTags msg).drop 1)
  else restAfterTags msg

/-- The command token: the space-free token at the command position. -/
def commandOf (msg : Str) : Str := takeTok (restAfterPfx msg)

/-- The line after the command token is consumed. -/
def restAfterCommand (msg : Str) : Str := restTok (restAfterPfx msg)

theorem le_length_getNextSpace (s : Str) (o : Nat) :
    IRCMessage.getNextSpace s o ≤ s.length := by
  unfold IRCMessage.getNextSpace
  cases hfind : jsIndexOf ' ' (s.drop o) with
  | none => exact le_rfl
  | some k =>
    dsimp only
    have hk := IRCMessage.jsIndexOf_lt_length hfind
    rw [List.length_drop] at hk
    omega

/-- A segment stage starting at a non-space marker character: the slice from
`o + 1` to the next space is the head token of the suffix after the marker,
and the drop past that space is the rest after that token. -/
theorem seg_stage (s : Str) (o : Nat) {a : Char}
    (h : (s.drop o).head? = some a) (ha : a ≠ ' ') :
    jsSlice s (o + 1) (IRCMessage.getNextSpace s o) = takeTok (s.drop (o + 1)) ∧
    s.drop (IRCMessage.getNextSpace s o + 1) = restTok (s.drop (o + 1)) := by
  have hgns := getNextSpace_succ_of_ne s o h ha
  exact ⟨by rw [hgns]; exact jsSlice_getNextSpace s (o + 1),
    by rw [hgns]; exact drop_getNextSpace s (o + 1)⟩

theorem drop_add_one_eq (s : Str) (o : Nat) :
    s.drop (o + 1) = (s.drop o).drop 1 := by
  rw [List.drop_drop]

/-- `IRCMessage.parse` in token form: each stage of the offset walk equals
the corresponding `takeWhile`/`dropWhile` decomposition. -/
theorem parse_structural (msg : Str) :
    IRCMessage.parse msg =
      { command := commandOf msg, pfx := pfxOf msg,
        tags := (tagsOf msg).2, rawTags := (tagsOf msg).1,
        params := paramsSpec (restAfterCommand msg) } := by
  rw [IRCMessage.parse]
  have hA := currentChar_eq msg '@' 0
  rw [List.drop_zero] at hA
  by_cases h1 : msg.head? = some '@'
  · -- tag segment present
    have hc1 : IRCMessage.currentChar msg '@' 0 = true := by
      rw [hA]; exact decide_eq_true h1
    simp only [if_pos hc1]
    have hseg1 := seg_stage msg 0 (a := '@') (by rwa [List.drop_zero]) (by decide)
    simp only [Nat.zero_add] at hseg1
    rw [hseg1.1]
    have hB := currentChar_eq msg ':' (IRCMessage.getNextSpace msg 0 + 1)
    rw [hseg1.2] at hB
    have hT : restAfterTags msg = restTok (msg.drop 1) := by
      rw [restAfterTags, if_pos h1]
    by_cases h2 : (restTok (msg.drop 1)).head? = some ':'
    · -- origin segment present
      have hc2 : IRCMessage.currentChar msg ':'
          (IRCMessage.getNextSpace msg 0 + 1) = true := by
        rw [hB]; exact decide_eq_true h2
      simp only [if_pos hc2]
      have hseg2 := seg_stage msg (IRCMessage.getNextSpace msg 0 + 1) (a := ':')
        (by rw [hseg1.2]; exact h2) (by decide)
      rw [drop_add_one_eq msg (IRCMessage.getNextSpace msg 0 + 1), hseg1.2] at hseg2
      rw [hseg2.1,
        jsSlice_getNextSpace msg
          (IRCMessage.getNextSpace msg (IRCMessage.getNextSpace msg 0 + 1) + 1),
        parseParamsAux_eq msg
          (IRCMessage.getNextSpace msg
            (IRCMessage.getNextSpace msg (IRCMessage.getNextSpace msg 0 + 1) + 1) + 1),
        drop_getNextSpace msg
          (IRCMessage.getNextSpace msg (IRCMessage.getNextSpace msg 0 + 1) + 1),
        hseg2.2]
      rw [tagsOf, if_pos h1, pfxOf, hT, if_pos h2, restAfterCommand, commandOf,
        restAfterPfx, hT, if_pos h2]
    · -- no origin segment
      have hc2 : ¬ IRCMessage.currentChar msg ':'
          (IRCMessage.getNextSpace msg 0 + 1) = true := by
        rw [hB]; simp only [decide_eq_true_eq]; exact h2
      simp only [if_neg hc2]
      rw [jsSlice_getNextSpace msg (IRCMessage.getNextSpace msg 0 + 1),
        parseParamsAux_eq msg
          (IRCMessage.getNextSpace msg (IRCMessage.getNextSpace msg 0 + 1) + 1),
        drop_getNextSpace msg (IRCMessage.getNextSpace msg 0 + 1),
        hseg1.2]
      rw [tagsOf, if_pos h1, pfxOf, hT, if_neg h2, restAfterCommand, commandOf,
        restAfterPfx, hT, if_neg h2]
  · -- no tag segment
    have hc1 : ¬ IRCMessage.currentChar msg '@' 0 = true := by
      rw [hA]; simp only [decide_eq_true_eq]; exact h1
    simp only [if_neg hc1]
    have hB := currentChar_eq msg ':' 0
    rw [List.drop_zero] at hB
    have hT : restAfterTags msg = msg := by rw [restAfterTags, if_neg h1]
    by_cases h2 : msg.head? = some ':'
    · -- origin segment present
      have hc2 : IRCMessage.currentChar msg ':' 0 = true := by
        rw [hB]; exact decide_eq_true h2
      simp only [if_pos hc2]
      have hseg2 := seg_stage msg 0 (a := ':') (by rwa [List.drop_zero]) (by decide)
      simp only [Nat.zero_add] at hseg2
      simp only [Nat.zero_add]
      rw [hseg2.1,
        jsSlice_getNextSpace msg (IRCMessage.getNextSpace msg 0 + 1),
        parseParamsAux_eq msg
          (IRCMessage.getNextSpace msg (IRCMessage.getNextSpace msg 0 + 1) + 1),
        drop_getNextSpace msg (IRCMessage.getNextSpace msg 0 + 1),
        hseg2.2]
      rw [tagsOf, if_neg h1, pfxOf, hT, if_pos h2, restAfterCommand, commandOf,
        restAfterPfx, hT, if_pos h2]
    · -- bare command line
      have hc2 : ¬ IRCMessage.currentChar msg ':' 0 = true := by
        rw [hB]; simp only [decide_eq_true_eq]; exact h2
      simp only [if_neg hc2]
      rw [jsSlice_getNextSpace msg 0,
        parseParamsAux_eq msg (IRCMessage.getNextSpace msg 0 + 1),
        drop_getNextSpace msg 0, List.drop_zero]
      rw [tagsOf, if_neg h1, pfxOf, hT, if_neg h2, restAfterCommand, commandOf,
        restAfterPfx, hT, if_neg h2]

/-! ## Token lemmas over concatenated segments -/

theorem takeTok_append (l r : Str) (hl : ∀ c ∈ l, c ≠ ' ') :
    takeTok (l ++ ' ' :: r) = l := by
  induction l with
  | nil => simp [takeTok]
  | cons a l' ih =>
    rw [List.cons_append, takeTok,
      List.takeWhile_cons_of_pos (by simp [hl a (List.mem_cons_self a l')])]
    rw [takeTok] at ih
    rw [ih fun c hc => hl c (List.mem_cons_of_mem a hc)]

theorem restTok_append (l r : Str) (hl : ∀ c ∈ l, c ≠ ' ') :
    restTok (l ++ ' ' :: r) = r := by
  induction l with
  | nil => simp [restTok]
  | cons a l' ih =>
    rw [List.cons_append, restTok,
      List.dropWhile_cons_of_pos (by simp [hl a (List.mem_cons_self a l')])]
    rw [restTok] at ih
    exact ih fun c hc => hl c (List.mem_cons_of_mem a hc)

/-! ## C2 — parameter collection rule -/

/-- C2: after the command token is consumed, `parse` collects the
space-delimited remaining tokens as parameters, except that a token starting
with `:` turns the rest of the line (leading `:` stripped, embedded spaces
kept) into the final parameter and stops the loop; in particular
`"CMD a b :c d e"` yields parameters `["a", "b", "c d e"]`. -/
theorem C2_params_rule :
    (∀ msg : Str,
      (IRCMessage.parse msg).params = paramsSpec (restAfterCommand msg)) ∧
    (IRCMessage.parse "CMD a b :c d e".toList).params =
      ["a".toList, "b".toList, "c d e".toList] := by
  constructor
  · intro msg
    rw [parse_structural]
  · simp [IRCMessage.parse, IRCMessage.parseParamsAux, IRCMessage.currentChar,
      IRCMessage.getNextSpace, jsIndexOf, jsSlice]

/-! ## C4 — tag unescaping -/

/-- Whether `a, b` form one of the five mapped escape sequences of the spec. -/
def isMappedEsc (a b : Char) : Bool :=
  a = '\\' && (b = ':' || b = 's' || b = '\\' || b = 'r' || b = 'n')

/-- The replacement character for a mapped escape sequence. -/
def mapEsc (b : Char) : Char :=
  if b = ':' then ';'
  else if b = 's' then ' '
  else if b = '\\' then '\\'
  else if b = 'r' then '\r'
  else '\n'

/-- Spec-side unescaping: scan left to right; at each position replace a
mapped two-character sequence (longest match is trivial, all mapped
sequences have length two) and continue after it, otherwise keep the
character — so unmapped backslash sequences are left unevaluated. -/
def unescapeSpec : Str → Str
  | a :: b :: rest =>
    if isMappedEsc a b then mapEsc b :: unescapeSpec rest
    else a :: unescapeSpec (b :: rest)
  | s => s

theorem esc2unesc_some {b u : Char} (h : IRCMessage.esc2unesc b = some u) :
    isMappedEsc '\\' b = true ∧ mapEsc b = u := by
  unfold IRCMessage.esc2unesc at h
  unfold isMappedEsc mapEsc
  split_ifs at h <;> simp_all <;> exact h

theorem esc2unesc_none {b : Char} (h : IRCMessage.esc2unesc b = none) :
    isMappedEsc '\\' b = false := by
  unfold IRCMessage.esc2unesc at h
  unfold isMappedEsc
  split_ifs at h
  simp_all

theorem unescape_eq (s : Str) : IRCMessage.unescapeIRC s = unescapeSpec s := by
  match s with
  | [] => rfl
  | [a] =>
    by_cases ha : a = '\\'
    · subst ha; rfl
    · simp [IRCMessage.unescapeIRC, unescapeSpec, ha]
  | a :: b :: rest =>
    have ih1 := unescape_eq rest
    have ih2 := unescape_eq (b :: rest)
    by_cases ha : a = '\\'
    · subst ha
      cases hm : IRCMessage.esc2unesc b with
      | some u =>
        obtain ⟨hmap, hval⟩ := esc2unesc_some hm
        simp [IRCMessage.unescapeIRC, unescapeSpec, hm, hmap, hval, ih1]
      | none =>
        have hmap := esc2unesc_none hm
        simp [IRCMessage.unescapeIRC, unescapeSpec, hm, hmap, ih2]
    · simp [IRCMessage.unescapeIRC, unescapeSpec, ha, ih2,
        isMappedEsc]
termination_by s.length

/-- C4: the unescape function realizes the spec's left-to-right replacement
of the five mapped escape sequences, leaving unmapped backslash sequences
unevaluated; in particular the tag value `a\sb\:c\\d` unescapes to
`a b;c\d`. -/
theorem C4_unescape :
    (∀ s : Str, IRCMessage.unescapeIRC s = unescapeSpec s) ∧
    IRCMessage.unescapeIRC "a\\sb\\:c\\\\d".toList = "a b;c\\d".toList := by
  refine ⟨unescape_eq, ?_⟩
  simp [IRCMessage.unescapeIRC, IRCMessage.esc2unesc]

/-! ## C5 — no-command behaviour -/

/-- C5 counterexample: on a line with no locatable command token (the empty
line), `parse` does not fail — it returns a message, and that message's
`command` is empty, refuting the non-emptiness invariant for successfully
parsed messages. -/
theorem C5_counterexample :
    (IRCMessage.parse ([] : Str)).command = [] ∧
    IRCMessage.parse ([] : Str) =
      { command := [], pfx := {}, tags := [], rawTags := [], params := [] } := by
  constructor
  · rfl
  · simp [IRCMessage.parse, IRCMessage.parseParamsAux, IRCMessage.currentChar,
      IRCMessage.getNextSpace, jsIndexOf, jsSlice]

/-- C5 amended: `parse` is total — it never fails with `MalformedMessage`.
The command field is always the space-free token at the command position,
and when no command token can be located (e.g. the empty line) that token,
and hence the command field, is the empty string rather than an error. -/
theorem C5_amended :
    (∀ msg : Str, (IRCMessage.parse msg).command = takeTok (restAfterPfx msg)) ∧
    (IRCMessage.parse ([] : Str)).command = [] := by
  constructor
  · intro msg
    rw [parse_structural]
    rfl
  · rfl

/-! ## C1 — component recovery and structured round trip -/

/-- C1: for a well-formed wire line consisting of a tag segment, an origin
segment, a command, and a trailing parameter, `parse` recovers all four
components — each one equals the corresponding sub-parser applied to its own
isolated segment text — and rebuilding a message from the serialized
structured record (`fromJSON` after `toJSON`) preserves `command`, `pfx`
(the origin), `tags`, `rawTags`, and `params`. -/
theorem C1_recovery_and_roundtrip :
    (∀ tagsStr pfxStr cmd trailing : Str,
      (∀ c ∈ tagsStr, c ≠ ' ') → (∀ c ∈ pfxStr, c ≠ ' ') → (∀ c ∈ cmd, c ≠ ' ') →
      IRCMessage.parse
        ('@' :: (tagsStr ++ (' ' :: ':' :: (pfxStr ++
          (' ' :: (cmd ++ (' ' :: ':' :: trailing))))))) =
        { command := cmd
          pfx := IRCMessage.parsePrefixRaw pfxStr
          tags := (IRCMessage.parseTagsSegment tagsStr).2
          rawTags := (IRCMessage.parseTagsSegment tagsStr).1
          params := [trailing] }) ∧
    (∀ m : IRCMessage, IRCMessage.fromJSON (IRCMessage.toJSON m) = m) := by
  constructor
  · intro tagsStr pfxStr cmd trailing ht hp hcm
    rw [parse_structural]
    have h1 : restAfterTags
        ('@' :: (tagsStr ++ (' ' :: ':' :: (pfxStr ++
          (' ' :: (cmd ++ (' ' :: ':' :: trailing))))))) =
        ':' :: (pfxStr ++ (' ' :: (cmd ++ (' ' :: ':' :: trailing)))) := by
      rw [restAfterTags]
      simp only [List.head?_cons]
      rw [if_true]
      exact restTok_append _ _ ht
    have h2 : tagsOf
        ('@' :: (tagsStr ++ (' ' :: ':' :: (pfxStr ++
          (' ' :: (cmd ++ (' ' :: ':' :: trailing))))))) =
        IRCMessage.parseTagsSegment tagsStr := by
      rw [tagsOf]
      simp only [List.head?_cons]
      rw [if_true]
      exact congrArg _ (takeTok_append _ _ ht)
    have h3 : pfxOf
        ('@' :: (tagsStr ++ (' ' :: ':' :: (pfxStr ++
          (' ' :: (cmd ++ (' ' :: ':' :: trailing))))))) =
        IRCMessage.parsePrefixRaw pfxStr := by
      rw [pfxOf, h1]
      simp only [List.head?_cons]
      rw [if_true]
      exact congrArg _ (takeTok_append _ _ hp)
    have h4 : restAfterPfx
        ('@' :: (tagsStr ++ (' ' :: ':' :: (pfxStr ++
          (' ' :: (cmd ++ (' ' :: ':' :: trailing))))))) =
        cmd ++ (' ' :: ':' :: trailing) := by
      rw [restAfterPfx, h1]
      simp only [List.head?_cons]
      rw [if_true]
      exact restTok_append _ _ hp
    rw [commandOf, restAfterCommand, h2, h3, h4, takeTok_append _ _ hcm,
      restTok_append _ _ hcm]
    simp [paramsSpec]
  · intro m
    rfl

/-- The concrete well-formed line used to witness C1. -/
def demoLine : Str :=
  '@' :: ("k=v".toList ++ (' ' :: ':' :: ("nick!user@host".toList ++
    (' ' :: ("PRIVMSG".toList ++ (' ' :: ':' :: "hello world".toList))))))

theorem C1_witness :
    ((∀ c ∈ ("k=v".toList : Str), c ≠ ' ') ∧
      (∀ c ∈ ("nick!user@host".toList : Str), c ≠ ' ') ∧
      (∀ c ∈ ("PRIVMSG".toList : Str), c ≠ ' ')) ∧
    IRCMessage.parse demoLine =
      { command := "PRIVMSG".toList
        pfx := IRCMessage.parsePrefixRaw "nick!user@host".toList
        tags := (IRCMessage.parseTagsSegment "k=v".toList).2
        rawTags := (IRCMessage.parseTagsSegment "k=v".toList).1
        params := ["hello world".toList] } ∧
    IRCMessage.fromJSON (IRCMessage.toJSON (IRCMessage.parse demoLine)) =
      IRCMessage.parse demoLine :=
  ⟨⟨by decide, by decide, by decide⟩,
    C1_recovery_and_roundtrip.1 _ _ _ _ (by decide) (by decide) (by decide),
    C1_recovery_and_roundtrip.2 _⟩

/-! ## C3 — origin splitting -/

theorem contains_true_of_mem {l : Str} {ch : Char} (h : ch ∈ l) :
    l.contains ch = true :=
  List.elem_eq_true_of_mem h

theorem contains_false_of (l : Str) (ch : Char) (h : ∀ c ∈ l, c ≠ ch) :
    l.contains ch = false := by
  cases hc : l.contains ch
  · rfl
  · exact absurd rfl (h ch (List.elem_iff.mp hc))

theorem jsSplit_sepFree (ch : Char) (l : Str) (h : ∀ c ∈ l, c ≠ ch) :
    jsSplit ch l = [l] := by
  induction l with
  | nil => rfl
  | cons a l' ih =>
    rw [jsSplit, if_neg (h a (List.mem_cons_self a l')),
      ih fun c hc => h c (List.mem_cons_of_mem a hc)]

theorem jsSplit_append (ch : Char) (l r : Str) (hl : ∀ c ∈ l, c ≠ ch) :
    jsSplit ch (l ++ ch :: r) = l :: jsSplit ch r := by
  induction l with
  | nil =>
    rw [List.nil_append, jsSplit, if_pos rfl]
  | cons a l' ih =>
    rw [List.cons_append, jsSplit,
      if_neg (hl a (List.mem_cons_self a l')),
      ih fun c hc => hl c (List.mem_cons_of_mem a hc)]

theorem parsePrefixRaw_nick_user_host (n u h : Str)
    (hn : ∀ c ∈ n, c ≠ '!') (hu1 : ∀ c ∈ u, c ≠ '!') (hu2 : ∀ c ∈ u, c ≠ '@')
    (hh1 : ∀ c ∈ h, c ≠ '!') (hh2 : ∀ c ∈ h, c ≠ '@') :
    IRCMessage.parsePrefixRaw (n ++ '!' :: (u ++ '@' :: h)) =
      { nickname := some n, user := some u, host := some h } := by
  have hsp1 : jsSplit '!' (n ++ '!' :: (u ++ '@' :: h)) = [n, u ++ '@' :: h] := by
    rw [jsSplit_append _ _ _ hn, jsSplit_sepFree]
    intro c hc
    rcases List.mem_append.mp hc with h1 | h1
    · exact hu1 c h1
    · rcases List.mem_cons.mp h1 with rfl | h2
      · decide
      · exact hh1 c h2
  have hsp2 : jsSplit '@' (u ++ '@' :: h) = [u, h] := by
    rw [jsSplit_append _ _ _ hu2, jsSplit_sepFree _ _ hh2]
  have hc1 : (n ++ '!' :: (u ++ '@' :: h)).contains '!' = true :=
    contains_true_of_mem (by simp)
  have hc2 : (u ++ '@' :: h).contains '@' = true :=
    contains_true_of_mem (by simp)
  rw [IRCMessage.parsePrefixRaw]
  rw [if_pos hc1, hsp1]
  simp only [List.headD_cons, List.get?_cons_succ, List.get?_cons_zero,
    Option.getD_some]
  rw [if_pos hc2, hsp2]
  simp

theorem parsePrefixRaw_nick_user (n u : Str)
    (hn : ∀ c ∈ n, c ≠ '!') (hu1 : ∀ c ∈ u, c ≠ '!') (hu2 : ∀ c ∈ u, c ≠ '@') :
    IRCMessage.parsePrefixRaw (n ++ '!' :: u) =
      { nickname := some n, user := some u, host := none } := by
  have hsp1 : jsSplit '!' (n ++ '!' :: u) = [n, u] := by
    rw [jsSplit_append _ _ _ hn, jsSplit_sepFree _ _ hu1]
  have hc1 : (n ++ '!' :: u).contains '!' = true :=
    contains_true_of_mem (by simp)
  have hnc : ¬ (u.contains '@' = true) := by
    rw [contains_false_of _ _ hu2]
    exact Bool.false_ne_true
  rw [IRCMessage.parsePrefixRaw]
  rw [if_pos hc1, hsp1]
  simp only [List.headD_cons, List.get?_cons_succ, List.get?_cons_zero,
    Option.getD_some]
  rw [if_neg hnc]

theorem parsePrefixRaw_user_host (u h : Str)
    (hu1 : ∀ c ∈ u, c ≠ '!') (hu2 : ∀ c ∈ u, c ≠ '@')
    (hh1 : ∀ c ∈ h, c ≠ '!') (hh2 : ∀ c ∈ h, c ≠ '@') :
    IRCMessage.parsePrefixRaw (u ++ '@' :: h) =
      { nickname := none, user := some u, host := some h } := by
  have hnb : (u ++ '@' :: h).contains '!' = false := by
    apply contains_false_of
    intro c hc
    rcases List.mem_append.mp hc with h1 | h1
    · exact hu1 c h1
    · rcases List.mem_cons.mp h1 with rfl | h2
      · decide
      · exact hh1 c h2
  have hsp2 : jsSplit '@' (u ++ '@' :: h) = [u, h] := by
    rw [jsSplit_append _ _ _ hu2, jsSplit_sepFree _ _ hh2]
  have hc2 : (u ++ '@' :: h).contains '@' = true :=
    contains_true_of_mem (by simp)
  have hnb' : ¬ ((u ++ '@' :: h).contains '!' = true) := by
    rw [hnb]
    exact Bool.false_ne_true
  rw [IRCMessage.parsePrefixRaw]
  rw [if_neg hnb', if_pos hc2, hsp2]
  simp

theorem parsePrefixRaw_host_only (h : Str)
    (hh1 : ∀ c ∈ h, c ≠ '!') (hh2 : ∀ c ∈ h, c ≠ '@') :
    IRCMessage.parsePrefixRaw h =
      { nickname := none, user := none, host := some h } := by
  have hn1 : ¬ (h.contains '!' = true) := by
    rw [contains_false_of _ _ hh1]
    exact Bool.false_ne_true
  have hn2 : ¬ (h.contains '@' = true) := by
    rw [contains_false_of _ _ hh2]
    exact Bool.false_ne_true
  rw [IRCMessage.parsePrefixRaw]
  rw [if_neg hn1, if_neg hn2]

/-- C3 counterexample: on the line `:a!b!c CMD` the claimed rule makes the
remainder after the first `!` — the text `b!c` — the user (no `@` present),
but the code's double `split` keeps only the chunk between the two `!`
separators, so the user is `b`. -/
theorem C3_counterexample :
    (IRCMessage.parse ":a!b!c CMD".toList).pfx.user = some "b".toList ∧
    (IRCMessage.parse ":a!b!c CMD".toList).pfx.user ≠ some "b!c".toList := by
  constructor <;> decide

/-- C3 amended: the origin field of a parsed line is the origin splitter
applied to the text between the leading `:` and the next space, and the
splitter obeys the claimed rule whenever each separator occurs at most once
(JS `split` destructuring keeps only the first two chunks, so text after a
second `!` or `@` is discarded); in particular `:nick!user@host CMD` yields
nickname/user/host and `:host CMD` yields host only. -/
theorem C3_amended :
    (∀ msg : Str, (restAfterTags msg).head? = some ':' →
      (IRCMessage.parse msg).pfx =
        IRCMessage.parsePrefixRaw (takeTok ((restAfterTags msg).drop 1))) ∧
    (∀ n u h : Str,
      (∀ c ∈ n, c ≠ '!') → (∀ c ∈ u, c ≠ '!') → (∀ c ∈ u, c ≠ '@') →
      (∀ c ∈ h, c ≠ '!') → (∀ c ∈ h, c ≠ '@') →
      IRCMessage.parsePrefixRaw (n ++ '!' :: (u ++ '@' :: h)) =
        { nickname := some n, user := some u, host := some h } ∧
      IRCMessage.parsePrefixRaw (n ++ '!' :: u) =
        { nickname := some n, user := some u, host := none } ∧
      IRCMessage.parsePrefixRaw (u ++ '@' :: h) =
        { nickname := none, user := some u, host := some h } ∧
      IRCMessage.parsePrefixRaw h =
        { nickname := none, user := none, host := some h }) ∧
    (IRCMessage.parse ":nick!user@host CMD".toList).pfx =
      { nickname := some "nick".toList, user := some "user".toList,
        host := some "host".toList } ∧
    (IRCMessage.parse ":host CMD".toList).pfx =
      { nickname := none, user := none, host := some "host".toList } := by
  refine ⟨?_, ?_, by decide, by decide⟩
  · intro msg hm
    rw [parse_structural]
    show pfxOf msg = _
    rw [pfxOf, if_pos hm]
  · intro n u h hn hu1 hu2 hh1 hh2
    exact ⟨parsePrefixRaw_nick_user_host n u h hn hu1 hu2 hh1 hh2,
      parsePrefixRaw_nick_user n u hn hu1 hu2,
      parsePrefixRaw_user_host u h hu1 hu2 hh1 hh2,
      parsePrefixRaw_host_only h hh1 hh2⟩

theorem C3_witness :
    ((restAfterTags ":host CMD".toList).head? = some ':' ∧
      (∀ c ∈ ("b".toList : Str), c ≠ '!')) ∧
    (IRCMessage.parse ":host CMD".toList).pfx =
      IRCMessage.parsePrefixRaw (takeTok ((restAfterTags ":host CMD".toList).drop 1)) ∧
    IRCMessage.parsePrefixRaw ("a".toList ++ '!' :: ("b".toList ++ '@' :: "c".toList)) =
      { nickname := some "a".toList, user := some "b".toList,
        host := some "c".toList } :=
  ⟨⟨by decide, by decide⟩,
    C3_amended.1 ":host CMD".toList (by decide),
    (C3_amended.2.1 "a".toList "b".toList "c".toList (by decide) (by decide)
      (by decide) (by decide) (by decide)).1⟩

/-! ## Worker session manager (class WorkerInterfacer of the worker source)

The model covers the peer-connection logic (`onChromeConnect` /
`onChromeDisconnect`), the start-session handler (`handleChromeCSYN` with
`connectTwitch`), the OAuth continuation (`onSocketOpen`), and the NOTICE
handler. `console.assert` never throws in JS: a violated assertion is
modelled as an `assertFailed` output with execution continuing. -/

/-- A JS value as it flows into control-message payloads: `undefined`
(absent property / out-of-range index), `null`, or a string. -/
inductive JSVal
  | undef
  | nullV
  | str (s : Str)
deriving DecidableEq

/-- WebSocket readyState values. -/
inductive SockReady
  | connecting
  | opened
  | closing
  | closed
deriving DecidableEq

/-- An upstream WebSocket, identified by a creation id. -/
structure Sock where
  id : Nat
  readyState : SockReady
deriving DecidableEq

/-- One pub/sub registration of the worker (event name and `once` flag). -/
structure Sub where
  event : String
  once : Bool
deriving DecidableEq

/-- Control-message payloads the modelled handlers produce. -/
inductive Payload
  | undef
  | terr (reason : JSVal) (description : JSVal)
deriving DecidableEq

/-- Observable actions of the worker. -/
inductive Output
  | portDisconnect (port : Nat)
  | chromeMsg (command : String) (payload : Payload)
  | assertFailed
  | sockClose (id : Nat)
  | sockNew (id : Nat)
deriving DecidableEq

/-- The mutable fields of the WorkerInterfacer instance. -/
structure WorkerState where
  socket : Option Sock := none
  chromePort : Option Nat := none
  isChromeConnected : Bool := false
  isTwitchConnected : Bool := false
  channel : Option Str := none
  subs : List Sub := []
deriving DecidableEq

/-- `onChromeDisconnect`: clears the connected flag and the port. -/
def onChromeDisconnect (s : WorkerState) : WorkerState :=
  { s with isChromeConnected := false, chromePort := none }

/-- `onChromeConnect`: when a peer is already attached (flag set or port
present), the existing port is disconnected (`chromePort.disconnect()` — a
`none` port here would be a null dereference, modelled as `none`) and the
local teardown `onChromeDisconnect` runs before the new port is attached. -/
def onChromeConnect (s : WorkerState) (port : Nat) :
    Option (WorkerState × List Output) :=
  if s.isChromeConnected ∨ s.chromePort ≠ none then
    match s.chromePort with
    | none => none
    | some old =>
      some ({ onChromeDisconnect s with chromePort := some port },
        [Output.portDisconnect old])
  else
    some ({ s with chromePort := some port }, [])

/-- Local-transport events: a new peer connection, or the attached peer's
disconnection (delivered only for the currently attached port). -/
inductive PeerEvent
  | connect (port : Nat)
  | disconnect (port : Nat)
deriving DecidableEq

/-- One local-transport event applied to worker state, paired with the ghost
list of peers that consider themselves attached: a peer enters on connect
and leaves exactly when it disconnects itself or observes the eviction
notification emitted by the worker. -/
def connStep (sg : WorkerState × List Nat) (e : PeerEvent) :
    Option (WorkerState × List Nat) :=
  match e with
  | .connect p =>
    match onChromeConnect sg.1 p with
    | none => none
    | some (s', outs) =>
      some (s', (sg.2.filter fun q => decide (Output.portDisconnect q ∉ outs)) ++ [p])
  | .disconnect p =>
    if sg.1.chromePort = some p then
      some (onChromeDisconnect sg.1, sg.2.filter fun q => decide (q ≠ p))
    else
      some sg

def runConnFrom (sg : WorkerState × List Nat) :
    List PeerEvent → Option (WorkerState × List Nat)
  | [] => some sg
  | e :: rest =>
    match connStep sg e with
    | none => none
    | some sg' => runConnFrom sg' rest

/-- Run a sequence of local-peer events from the initial worker state. -/
def runConn (evs : List PeerEvent) : Option (WorkerState × List Nat) :=
  runConnFrom ({}, []) evs

/-- Invariant of peer-event runs: the connected flag is down between
messages, and the peers believing themselves attached are exactly the
attached port. -/
def ConnInv (sg : WorkerState × List Nat) : Prop :=
  sg.1.isChromeConnected = false ∧ sg.2 = sg.1.chromePort.toList

theorem connStep_inv (sg : WorkerState × List Nat) (e : PeerEvent)
    (h : ConnInv sg) : ∃ sg', connStep sg e = some sg' ∧ ConnInv sg' := by
  obtain ⟨hflag, hghost⟩ := h
  cases e with
  | connect p =>
    cases hcp : sg.1.chromePort with
    | none =>
      refine ⟨({ sg.1 with chromePort := some p }, [p]), ?_, ?_, ?_⟩
      · simp [connStep, onChromeConnect, hflag, hcp, hghost]
      · simp [hflag]
      · simp
    | some old =>
      refine ⟨({ onChromeDisconnect sg.1 with chromePort := some p }, [p]),
        ?_, ?_, ?_⟩
      · simp [connStep, onChromeConnect, hcp, hghost]
      · simp [onChromeDisconnect]
      · simp
  | disconnect p =>
    by_cases hp : sg.1.chromePort = some p
    · refine ⟨(onChromeDisconnect sg.1, []), ?_, ?_, ?_⟩
      · simp [connStep, hp, hghost]
      · simp [onChromeDisconnect]
      · simp [onChromeDisconnect]
    · exact ⟨sg, by simp [connStep, hp], hflag, hghost⟩

theorem runConnFrom_inv (evs : List PeerEvent) :
    ∀ sg, ConnInv sg → ∃ sg', runConnFrom sg evs = some sg' ∧ ConnInv sg' := by
  induction evs with
  | nil => exact fun sg h => ⟨sg, rfl, h⟩
  | cons e rest ih =>
    intro sg h
    obtain ⟨sg', hstep, hinv⟩ := connStep_inv sg e h
    obtain ⟨sg'', hrun, hinv'⟩ := ih sg' hinv
    exact ⟨sg'', by rw [runConnFrom, hstep]; exact hrun, hinv'⟩

/-- C6: over every sequence of local-peer connection and disconnection
events the worker never crashes and at most one peer is attached (and
believes itself attached) at any time; accepting a connection while a peer
is attached runs the teardown, emits the disconnect notification for the old
peer, and attaches exactly the new one. -/
theorem C6_at_most_one_peer :
    (∀ evs : List PeerEvent, ∃ s g, runConn evs = some (s, g) ∧
      g = s.chromePort.toList ∧ g.length ≤ 1) ∧
    (∀ (s : WorkerState) (old p : Nat), s.chromePort = some old →
      onChromeConnect s p =
        some ({ s with isChromeConnected := false, chromePort := some p },
          [Output.portDisconnect old])) := by
  constructor
  · intro evs
    obtain ⟨⟨s, g⟩, hrun, hflag, hghost⟩ :=
      runConnFrom_inv evs ({}, []) ⟨rfl, rfl⟩
    have hg : g = s.chromePort.toList := hghost
    refine ⟨s, g, hrun, hg, ?_⟩
    rw [hg]
    cases s.chromePort <;> simp
  · intro s old p hcp
    simp [onChromeConnect, hcp, onChromeDisconnect]

theorem C6_witness :
    (({ chromePort := some 1 } : WorkerState).chromePort = some 1) ∧
    onChromeConnect ({ chromePort := some 1 } : WorkerState) 2 =
      some (({ chromePort := some 2, isChromeConnected := false } : WorkerState),
        [Output.portDisconnect 1]) :=
  ⟨rfl, C6_at_most_one_peer.2 _ 1 2 rfl⟩

/-- `connectTwitch`: closes a still-open socket, then creates and installs a
fresh WebSocket. -/
def connectTwitch (s : WorkerState) (newId : Nat) : WorkerState × List Output :=
  let closeOuts :=
    match s.socket with
    | some sk => if sk.readyState = .opened then [Output.sockClose sk.id] else []
    | none => []
  ({ s with socket := some { id := newId, readyState := .connecting } },
    closeOuts ++ [Output.sockNew newId])

/-- The `console.assert` condition of `handleChromeCSYN`:
`socket === null or socket.readyState === WebSocket.CLOSED`. -/
def socketEmptyOrClosed (s : WorkerState) : Bool :=
  match s.socket with
  | none => true
  | some sk => decide (sk.readyState = SockReady.closed)

/-- `handleChromeCSYN`: asserts the socket is empty (logging on violation,
never stopping), records the channel, adds a one-shot GLOBALUSERSTATE
subscription, calls `connectTwitch`, and posts CACK. -/
def handleChromeCSYN (s : WorkerState) (chan : Str) (newId : Nat) :
    WorkerState × List Output :=
  let assertOuts : List Output :=
    if socketEmptyOrClosed s then [] else [Output.assertFailed]
  let s1 := { s with
    isChromeConnected := true
    channel := some chan
    subs := s.subs ++ [{ event := "GLOBALUSERSTATE", once := true }] }
  let ct := connectTwitch s1 newId
  (ct.1, assertOuts ++ ct.2 ++ [Output.chromeMsg "CACK" Payload.undef])

/-- C7: the start-session handler never fails: whatever the socket state, it
records the channel, adds exactly one one-shot GLOBALUSERSTATE subscription,
installs a fresh socket, and sends CACK; at the claimed failing input — a
CSYN while the socket is open — it merely logs the violated assertion, closes
the old socket, opens a new one and still acknowledges, instead of failing
with InvalidState. -/
theorem C7_csyn_behaviour :
    (∀ (s : WorkerState) (chan : Str) (newId : Nat),
      (handleChromeCSYN s chan newId).1.channel = some chan ∧
      (handleChromeCSYN s chan newId).1.subs =
        s.subs ++ [{ event := "GLOBALUSERSTATE", once := true }] ∧
      (handleChromeCSYN s chan newId).1.socket =
        some { id := newId, readyState := SockReady.connecting } ∧
      Output.sockNew newId ∈ (handleChromeCSYN s chan newId).2 ∧
      Output.chromeMsg "CACK" Payload.undef ∈ (handleChromeCSYN s chan newId).2) ∧
    handleChromeCSYN { socket := some { id := 0, readyState := SockReady.opened } }
        "chan".toList 1 =
      ({ socket := some { id := 1, readyState := SockReady.connecting },
         chromePort := none, isChromeConnected := true,
         isTwitchConnected := false, channel := some "chan".toList,
         subs := [{ event := "GLOBALUSERSTATE", once := true }] },
       [Output.assertFailed, Output.sockClose 0, Output.sockNew 1,
        Output.chromeMsg "CACK" Payload.undef]) := by
  constructor
  · intro s chan newId
    refine ⟨?_, ?_, ?_, ?_, ?_⟩
    · rfl
    · rfl
    · rfl
    · simp [handleChromeCSYN, connectTwitch]
    · simp [handleChromeCSYN, connectTwitch]
  · decide

/-- JS truthiness for `string or null or undefined` values. -/
def jsTruthy : Option String → Bool
  | none => false
  | some s => decide (s ≠ "")

/-- Outcome of the OAuth continuation. -/
inductive AuthResult
  | authError
  | securityError
  | missingCredential
  | ok
deriving DecidableEq

/-- `onSocketOpen` after the OAuth flow returns: arguments are the stored
anti-forgery token and the `state`, `error`, `access_token` response
parameters. Result: the outcome, the stored token afterwards, and the
upstream lines sent. The `error` guard throws before the storage callback,
leaving the stored token in place; once the callback runs, the token is
removed before validation, a missing/mismatching state throws the security
error with nothing sent, a missing token throws, and otherwise the
capability request, the credential, and the nickname go out in order. -/
def onSocketOpen (stored respState respError respToken : Option String) :
    AuthResult × Option String × List String :=
  if jsTruthy respError then (.authError, stored, [])
  else
    if ¬ jsTruthy stored ∨ stored ≠ respState then (.securityError, none, [])
    else if ¬ jsTruthy respToken then (.missingCredential, none, [])
    else (.ok, none,
      ["CAP REQ :twitch.tv/tags twitch.tv/commands",
       "PASS oauth:" ++ respToken.getD "",
       "NICK hereugo"])

/-- C8: a returned `state` differing from the generated anti-forgery token
aborts the bootstrap with the security error, sends none of the three
upstream authentication lines, and removes the stored token; and whenever
the validation step runs at all (no provider error short-circuit), the
stored token is discarded regardless of the outcome. -/
theorem C8_state_mismatch :
    (∀ stored respState respError respToken : Option String,
      jsTruthy respError = false →
      jsTruthy stored = true →
      stored ≠ respState →
      onSocketOpen stored respState respError respToken =
        (AuthResult.securityError, none, [])) ∧
    (∀ stored respState respError respToken : Option String,
      jsTruthy respError = false →
      (onSocketOpen stored respState respError respToken).2.1 = none) := by
  constructor
  · intro stored respState respError respToken herr htruthy hne
    rw [onSocketOpen, if_neg (by rw [herr]; exact Bool.false_ne_true),
      if_pos (Or.inr hne)]
  · intro stored respState respError respToken herr
    rw [onSocketOpen, if_neg (by rw [herr]; exact Bool.false_ne_true)]
    split_ifs <;> rfl

theorem C8_witness :
    (jsTruthy none = false ∧ jsTruthy (some "tok-a") = true ∧
      (some "tok-a" : Option String) ≠ some "tok-b") ∧
    onSocketOpen (some "tok-a") (some "tok-b") none (some "secret") =
      (AuthResult.securityError, none, []) :=
  ⟨⟨rfl, by decide, by decide⟩,
    C8_state_mismatch.1 (some "tok-a") (some "tok-b") none (some "secret")
      rfl (by decide) (by decide)⟩

/-! ## Event bus (class PublishSubscribeTemplate) -/

/-- One subscriber as `emit` sees it: an identifier, whether its callback
throws, and its `once` flag. -/
structure Subscriber where
  id : Nat
  throws : Bool
  once : Bool
deriving DecidableEq

/-- The `forEach` loop of `emit`: invoked subscriber ids in order, and
whether the loop ran to completion (`false` when a callback threw — the
exception propagates out of `forEach`). -/
def emitRun : List Subscriber → List Nat × Bool
  | [] => ([], true)
  | sub :: rest =>
    if sub.throws then ([sub.id], false)
    else
      ((emitRun rest).1.cons sub.id, (emitRun rest).2)

/-- `PublishSubscribeTemplate.emit` on one event's subscriber list: the
invocations, and the subscriber list afterwards — `none` when a callback
threw, since the exception skips the one-shot-removal line. -/
def emit (subs : List Subscriber) : List Nat × Option (List Subscriber) :=
  ((emitRun subs).1,
    if (emitRun subs).2 then some (subs.filter fun sub => !sub.once) else none)

/-- C9 counterexample: with two registered handlers where the first throws,
`emit` invokes only the first — the second registered handler never runs, so
failures are not isolated per handler. -/
theorem C9_counterexample :
    (emit [⟨1, true, false⟩, ⟨2, false, false⟩]).1 = [1] ∧
    2 ∉ (emit [⟨1, true, false⟩, ⟨2, false, false⟩]).1 := by
  constructor <;> decide

/-- C9 amended: `emit` invokes handlers in registration order only up to and
including the first handler that throws; a throwing handler prevents all
later handlers from running and also skips the removal of one-shot
subscribers, while in the absence of throwing handlers every registered
handler is invoked and the one-shot subscribers are removed. -/
theorem C9_amended :
    (∀ subs : List Subscriber, (∀ x ∈ subs, x.throws = false) →
      (emit subs).1 = subs.map (fun x => x.id) ∧
      (emit subs).2 = some (subs.filter fun sub => !sub.once)) ∧
    (∀ (pre : List Subscriber) (sub : Subscriber) (post : List Subscriber),
      (∀ x ∈ pre, x.throws = false) → sub.throws = true →
      (emit (pre ++ sub :: post)).1 = pre.map (fun x => x.id) ++ [sub.id] ∧
      (emit (pre ++ sub :: post)).2 = none) := by
  have hrun : ∀ subs : List Subscriber, (∀ x ∈ subs, x.throws = false) →
      emitRun subs = (subs.map fun x => x.id, true) := by
    intro subs h
    induction subs with
    | nil => rfl
    | cons sub rest ih =>
      rw [emitRun, if_neg (by rw [h sub (List.mem_cons_self sub rest)]; simp),
        ih fun x hx => h x (List.mem_cons_of_mem sub hx)]
      rfl
  have hrunThrow : ∀ (pre : List Subscriber) (sub : Subscriber)
      (post : List Subscriber), (∀ x ∈ pre, x.throws = false) → sub.throws = true →
      emitRun (pre ++ sub :: post) = (pre.map (fun x => x.id) ++ [sub.id], false) := by
    intro pre sub post hpre hsub
    induction pre with
    | nil =>
      rw [List.nil_append, emitRun, if_pos hsub]
      rfl
    | cons a pre' ih =>
      rw [List.cons_append, emitRun,
        if_neg (by rw [hpre a (List.mem_cons_self a pre')]; simp),
        ih fun x hx => hpre x (List.mem_cons_of_mem a hx)]
      rfl
  constructor
  · intro subs h
    rw [emit, hrun subs h]
    exact ⟨rfl, rfl⟩
  · intro pre sub post hpre hsub
    rw [emit, hrunThrow pre sub post hpre hsub]
    exact ⟨rfl, rfl⟩

theorem C9_witness :
    ((∀ x ∈ ([⟨1, false, true⟩, ⟨2, false, false⟩] : List Subscriber),
        x.throws = false) ∧
      (⟨3, true, false⟩ : Subscriber).throws = true) ∧
    (emit [⟨1, false, true⟩, ⟨2, false, false⟩]).1 = [1, 2] ∧
    (emit [⟨4, false, false⟩, ⟨3, true, false⟩, ⟨5, false, false⟩]).2 = none :=
  ⟨⟨by decide, rfl⟩,
    (C9_amended.1 _ (by decide)).1,
    (C9_amended.2 [⟨4, false, false⟩] ⟨3, true, false⟩ [⟨5, false, false⟩]
      (by decide) rfl).2⟩

/-! ## C10 — NOTICE handling -/

/-- JS object indexing `tags[key]` on the tag map: the stored string, or
`undefined` when the key is absent (never `null`). -/
def jsLookup (tags : List (Str × Str)) (key : Str) : JSVal :=
  match tags.find? (fun kv => decide (kv.1 = key)) with
  | some kv => JSVal.str kv.2
  | none => JSVal.undef

/-- JS array indexing `params[i]`: `undefined` out of range. -/
def jsIndexParams (params : List Str) (i : Nat) : JSVal :=
  match params.get? i with
  | some v => JSVal.str v
  | none => JSVal.undef

/-- JS strict inequality `x !== null`. -/
def jsStrictNeNull : JSVal → Bool
  | JSVal.nullV => false
  | _ => true

def msgIdKey : Str := "msg-id".toList

/-- `handleNOTICE`: reads the `msg-id` tag, and unless it is strictly equal
to `null`, posts TERR with the tag value as reason and `params[1]` as
description. -/
def handleNOTICE (m : IRCMessage) : List Output :=
  if jsStrictNeNull (jsLookup m.tags msgIdKey) then
    [Output.chromeMsg "TERR"
      (Payload.terr (jsLookup m.tags msgIdKey) (jsIndexParams m.params 1))]
  else []

theorem jsLookup_ne_null (tags : List (Str × Str)) (key : Str) :
    jsStrictNeNull (jsLookup tags key) = true := by
  rw [jsLookup]
  cases tags.find? (fun kv => decide (kv.1 = key)) <;> rfl

/-- C10: the NOTICE handler posts exactly one TERR for every NOTICE — the
null-guard can never suppress it, because an absent `msg-id` tag reads as
`undefined`, which is strictly unequal to `null` — and when the tag is
absent the TERR's reason is `undefined`. -/
theorem C10_notice_always_terr :
    (∀ m : IRCMessage,
      handleNOTICE m =
        [Output.chromeMsg "TERR"
          (Payload.terr (jsLookup m.tags msgIdKey) (jsIndexParams m.params 1))]) ∧
    (∀ m : IRCMessage, (∀ kv ∈ m.tags, kv.1 ≠ msgIdKey) →
      handleNOTICE m =
        [Output.chromeMsg "TERR"
          (Payload.terr JSVal.undef (jsIndexParams m.params 1))]) := by
  have habs : ∀ m : IRCMessage, (∀ kv ∈ m.tags, kv.1 ≠ msgIdKey) →
      jsLookup m.tags msgIdKey = JSVal.undef := by
    intro m h
    rw [jsLookup]
    cases hf : m.tags.find? (fun kv => decide (kv.1 = msgIdKey)) with
    | none => rfl
    | some kv =>
      have := List.find?_some hf
      have hmem := List.mem_of_find?_eq_some hf
      simp at this
      exact absurd this (h kv hmem)
  constructor
  · intro m
    rw [handleNOTICE, if_pos (by rw [jsLookup_ne_null])]
  · intro m h
    rw [handleNOTICE, if_pos (by rw [jsLookup_ne_null]), habs m h]

/-- A concrete NOTICE with no tags, witnessing C10. -/
def demoNotice : IRCMessage :=
  { command := "NOTICE".toList, params := ["*".toList, "Login failed".toList] }

theorem C10_witness :
    (∀ kv ∈ demoNotice.tags, kv.1 ≠ msgIdKey) ∧
    handleNOTICE demoNotice =
      [Output.chromeMsg "TERR"
        (Payload.terr JSVal.undef (JSVal.str "Login failed".toList))] := by
  refine ⟨by decide, ?_⟩
  rw [C10_notice_always_terr.2 demoNotice (by decide)]
  rfl

end DPIP
